import Mathlib

/-!
Verification of the positional-argument allocation core of the sflags
repository, as a shallow embedding in Lean 4.

The embedding covers:
* the slot descriptor (`Arg`) and the shared token cursor counters
  (struct `Args` in `internal/positional`, split here into `Cur`),
* the sequential allocator `Args.Parse` / `Args.consumeWords` / `Args.Pop`
  and its error builders (`positionalRequiredErr`, `getRequiredNames`,
  `checkRequirementsFinal`, `argHasNotEnough`, `argHasTooMany`),
* the struct-tag scanner `ScanArgs` / `positionalReqs` /
  `parseArgsNumRequired` / `adjustMaximums` of the `positional` package,
  and the second scanner `Scan` of `internal/positional/argument.go`,
* the completion-side word stack `Words` (`GetWords`, `Words.Pop`) and the
  concurrent eligibility evaluator of `gen/gcomp/positional.go`
  (`positionalCompleter`, `consumeWords`, `completeOrIgnore`, `compCache`).

Modelling conventions:
* Go `int` is modelled as `Int` (no arithmetic here can overflow 64 bits
  for the list sizes involved); counters that are only ever incremented
  from zero (`done`, `parsed`) are modelled as `Nat`.
* Go strings inspected character-by-character by the tag parser are
  modelled as `List Char`; display strings stay `String`.
* `reflect.Value` is reduced to what the core reads of it: the kind of
  the field (scalar, slice or map) and, for collections, the list of
  elements converted into it so far.  `convert.Value` is modelled as an
  always-succeeding string conversion (the converter is an external
  collaborator; a conversion error is not an `ErrRequired` and is
  swallowed by `Args.Parse`, so the Required/overflow behaviour proved
  here is about the success path of the converter).
* The concurrent completion fan-out/join is modelled denotationally: each
  slot task runs on its own copy of the inputs (as the Go code does via
  `copyArgs` / `GetWords` on a value copy) and the merged result is the
  order-irrelevant collection of the per-slot contributions.
-/

/-- Kind of a positional struct field, the only thing the core ever asks
of `reflect.Value`'s type. -/
inductive ValKind where
  | scalar
  | slice
  | map
deriving DecidableEq, Repr

/-- `isSlice` as computed at the scanner and final-check call sites:
`Kind() == reflect.Slice || Kind() == reflect.Map`. -/
def isSliceOrMap (k : ValKind) : Bool :=
  k = ValKind.slice || k = ValKind.map

/-- One positional slot (struct `Arg` of `internal/positional`).  `value`
models the target field: elements converted into a slice/map so far, or
the (at most one) value written to a scalar field. -/
structure Arg where
  index : Nat
  name : String
  minimum : Int
  maximum : Int
  startMin : Int
  startMax : Int
  value : List String
  kind : ValKind
deriving DecidableEq, Repr

/-- The mutable counters of struct `Args` that `Pop` and the consume loop
share: `done` (global pops), `parsed` (pops by the current slot),
`needed` (tokens still owed to minimums), `offsetRange` (unmet part of
the current slot's minimum). -/
structure Cur where
  done : Nat
  parsed : Nat
  needed : Int
  offsetRange : Int
deriving DecidableEq, Repr

/-- `convert.Value(next, arg.Value, arg.Tag)` on the success path: a
slice or map accumulates the converted word, a scalar field holds the
last written word. -/
def convertValue (w : String) (arg : Arg) : Arg :=
  match arg.kind with
  | ValKind.slice => { arg with value := arg.value ++ [w] }
  | ValKind.map => { arg with value := arg.value ++ [w] }
  | ValKind.scalar => { arg with value := [w] }

/-- `Args.Pop` on a non-empty word list: advance `parsed` and `done`, and
while the current slot is below its minimum (`offsetRange > 0`) also
consume one unit of `needed`. -/
def curPop (c : Cur) : Cur :=
  { done := c.done + 1
    parsed := c.parsed + 1
    needed := if 0 < c.offsetRange then c.needed - 1 else c.needed
    offsetRange := if 0 < c.offsetRange then c.offsetRange - 1 else c.offsetRange }

/-- Result of one slot's `Args.consumeWords` call: the remaining word
list, the updated counters, the updated slot, and whether the slot ended
with `ErrRequired`. -/
structure ConsumeOut where
  words : List String
  cur : Cur
  arg : Arg
  requiredErr : Bool
deriving DecidableEq, Repr

/-- `Args.consumeWords` (sequential allocator, `part_004`): loop while
words remain; stop when the slot hit its bounded maximum, or when the
slot has its minimum and the remaining words are all needed downstream
(`allRemainingRequired`); otherwise pop and convert one word, and a
non-slice field stops after its single conversion.  On exhaustion the
slot fails with `ErrRequired` iff it is below its minimum. -/
def consumeWords (arg : Arg) (ws : List String) (c : Cur) : ConsumeOut :=
  match ws with
  | [] => ⟨[], c, arg, decide ((c.parsed : Int) < arg.minimum)⟩
  | w :: rest =>
    if (c.parsed : Int) = arg.maximum ∧ arg.maximum ≠ -1 then
      ⟨w :: rest, c, arg, false⟩
    else if arg.minimum ≤ (c.parsed : Int) ∧ ((w :: rest).length : Int) ≤ c.needed then
      ⟨w :: rest, c, arg, false⟩
    else
      let c' := curPop c
      let arg' := convertValue w arg
      if arg.kind ≠ ValKind.slice then ⟨rest, c', arg', false⟩
      else consumeWords arg' rest c'

/-- `isRequired` of `part_004`.  Since scanned minimums are never `-1`,
this is true for every scanned slot. -/
def isRequiredArg (p : Arg) : Bool :=
  (decide (p.kind ≠ ValKind.slice) && decide (0 < p.minimum)) ||
    decide (p.minimum ≠ -1) || decide (p.maximum ≠ -1)

/-- `argHasNotEnough`: clause for a collection short of its minimum. -/
def argHasNotEnough (arg : Arg) : String :=
  let arguments :=
    if 1 < arg.minimum then
      "arguments, but got only " ++ toString arg.value.length
    else "argument"
  "`" ++ arg.name ++ " (at least " ++ toString arg.minimum ++ " " ++ arguments ++ ")`"

/-- `argHasTooMany`: clause for a full bounded collection with words
left over (`added` = number of leftover words). -/
def argHasTooMany (arg : Arg) (added : Nat) : String :=
  if arg.maximum = 0 then "`" ++ arg.name ++ " (zero arguments)`"
  else
    let parsed :=
      if 1 < arg.maximum then
        "arguments, but got " ++ toString ((arg.value.length : Int) + added)
      else "argument"
    "`" ++ arg.name ++ " (at most " ++ toString arg.maximum ++ " " ++ parsed ++ ")`"

/-- `Args.getRequiredNames`: walk all slots, skip those strictly before
the failing one (by list position) and those not required; a non-slice
slot contributes its bare name, a slice short of its minimum contributes
the `argHasNotEnough` clause. -/
def getRequiredNames (slots : List Arg) (current : Arg) : List String :=
  slots.enum.filterMap fun p =>
    if p.1 < current.index then none
    else if ¬ isRequiredArg p.2 then none
    else if p.2.kind ≠ ValKind.slice then some ("`" ++ p.2.name ++ "`")
    else if (p.2.value.length : Int) < p.2.minimum then some (argHasNotEnough p.2)
    else none

/-- Structured form of the two errors `Args.Parse` can return: the
`Required` error built by `positionalRequiredErr` (carrying its clause
list) and the retrocompat "too many" error of `checkRequirementsFinal`
(carrying the `argHasTooMany` clause). -/
inductive PErr where
  | required (names : List String)
  | tooMany (clause : String)
deriving DecidableEq, Repr

/-- Rendering of a `PErr` into the user-visible message, mirroring
`positionalRequiredErr` and `checkRequirementsFinal`. -/
def renderPErr : PErr → String
  | PErr.required names =>
    if names.length = 1 then
      "required argument: " ++ names.headI ++ " was not provided"
    else
      "required argument: " ++ String.intercalate ", " (names.dropLast) ++
        " and " ++ (names.getLastD "") ++ " were not provided"
  | PErr.tooMany clause => "required argument: " ++ clause ++ " was not provided"

/-- `Args.positionalRequiredErr`: build the Required error from the
clause list, or no error at all when the list is empty. -/
def positionalRequiredErr (slots : List Arg) (current : Arg) : Option PErr :=
  let names := getRequiredNames slots current
  if names = [] then none else some (PErr.required names)

/-- `Args.checkRequirementsFinal`: after all slots succeeded, a last
slot that is a full bounded collection with words remaining raises the
"too many" error. -/
def checkRequirementsFinal (slots : List Arg) (words : List String) : Option PErr :=
  match slots.getLast? with
  | none => none
  | some current =>
    if isSliceOrMap current.kind ∧ (current.value.length : Int) = current.maximum ∧
        0 < words.length then
      some (PErr.tooMany (argHasTooMany current words.length))
    else none

/-- One step result of the per-slot loop of `Args.Parse`: the updated
slot list, leftover words, counters, and the slot that raised
`ErrRequired` (if any). -/
def parseLoop (processed : List Arg) (rest : List Arg) (ws : List String) (c : Cur) :
    List Arg × List String × Cur × Option Arg :=
  match rest with
  | [] => (processed, ws, c, none)
  | arg :: rest' =>
    -- setNext: reset the per-slot counter and the minimum offset
    let c0 : Cur := { c with parsed := 0, offsetRange := arg.minimum }
    let r := consumeWords arg ws c0
    if r.requiredErr then (processed ++ r.arg :: rest', r.words, r.cur, some r.arg)
    else parseLoop (processed ++ [r.arg]) rest' r.words r.cur

/-- Result of `Args.Parse`: the returned leftover words (`retargs`), the
returned error, the slot table after parsing, the final counters, and
whether the loop stopped on an `ErrRequired` (observability field for
stating properties; `Args.Parse` branches on exactly this). -/
structure ParseOut where
  retargs : List String
  err : Option PErr
  slots : List Arg
  cur : Cur
  failedRequired : Bool
deriving DecidableEq, Repr

/-- `Args.Parse` on a table as initialized by `ScanArgs`: `done = 0`
and `needed = totalMin` (the sum of the slot minimums).  Walks the slots
in order through `consumeWords`; an `ErrRequired` stops the walk and is
turned into the Required error; otherwise the final retrocompat check
runs.  The leftover words are always returned (deferred assignment). -/
def parse (slots : List Arg) (tokens : List String) : ParseOut :=
  let totalMin := (slots.map (·.minimum)).sum
  let c : Cur := ⟨0, 0, totalMin, 0⟩
  match parseLoop [] slots tokens c with
  | (slots', ws', c', some failing) =>
    ⟨ws', positionalRequiredErr slots' failing, slots', c', true⟩
  | (slots', ws', c', none) =>
    ⟨ws', checkRequirementsFinal slots' ws', slots', c', false⟩

/-!
Struct-tag scanning (`part_005` `ScanArgs` and `internal/positional/argument.go`
`Scan`).  The `required` struct tag value is modelled as `Option (List Char)`
(`none` = tag not set), mirroring Go's `tag.Get` pair `(value, isSet)`.
-/

/-- `strings.SplitN(s, "-", 2)`: split around the first `-` only. -/
def splitN2 : List Char → List (List Char)
  | [] => [[]]
  | ch :: rest =>
    if ch = '-' then [[], rest]
    else
      match splitN2 rest with
      | [only] => [ch :: only]
      | pre :: post => (ch :: pre) :: post
      | [] => [[ch]]

/-- Value of a decimal digit list, `none` on the empty list or any
non-digit character. -/
def decDigits? (l : List Char) : Option Nat :=
  if l = [] then none
  else
    l.foldl
      (fun acc? ch =>
        acc?.bind fun acc =>
          if ch.isDigit then some (acc * 10 + (ch.toNat - '0'.toNat)) else none)
      (some 0)

/-- `strconv.ParseInt(s, 10, 64)`: optional sign, decimal digits, and
the int64 range check (an out-of-range value is an error in Go, so the
caller keeps its default). -/
def parseInt64? (s : List Char) : Option Int :=
  match s with
  | '+' :: rest =>
    (decDigits? rest).bind fun v =>
      if (v : Int) ≤ 2 ^ 63 - 1 then some (v : Int) else none
  | '-' :: rest =>
    (decDigits? rest).bind fun v =>
      if (v : Int) ≤ 2 ^ 63 then some (-(v : Int)) else none
  | _ =>
    (decDigits? s).bind fun v =>
      if (v : Int) ≤ 2 ^ 63 - 1 then some (v : Int) else none

/-- `parseArgsNumRequired` of `part_005`: defaults `(-1, -1)`; a range
`"a-b"` parses each side (keeping the default on a parse error), a bare
value parses into the minimum only.  Returns `(required, maximum, set)`. -/
def parseArgsNumRequired (req : Option (List Char)) : Int × Int × Bool :=
  match req with
  | none => (-1, -1, false)
  | some sreq =>
    if sreq = [] then (-1, -1, true)
    else
      match splitN2 sreq with
      | r0 :: r1 :: _ => ((parseInt64? r0).getD 1, (parseInt64? r1).getD (-1), true)
      | [only] => ((parseInt64? only).getD 1, -1, true)
      | [] => (1, -1, true)

/-- `positionalReqs` of `part_005`: adjust the parsed requirements for
the field kind and the struct-level `required` policy (`all`). -/
def positionalReqs (kind : ValKind) (req : Option (List Char)) (all : Bool) : Int × Int :=
  let (required, max0, set) := parseArgsNumRequired req
  if ¬ isSliceOrMap kind ∧ 0 < required then (1, 1)
  else if ¬ set ∧ ¬ isSliceOrMap kind ∧ all then (1, 1)
  else if set ∧ isSliceOrMap kind ∧ 0 < required then (required, max0)
  else (0, max0)

/-- One raw positional field as handed to the scanners: display name,
field kind, and the `required` struct tag (with `none` = not set). -/
structure FieldSpec where
  name : String
  kind : ValKind
  required : Option (List Char)

/-- The scanned table: slots plus the aggregate counters of struct
`Args` that `ScanArgs` fills in. -/
structure ArgsT where
  slots : List Arg
  totalMin : Int
  totalMax : Int
  allRequired : Bool
  noTags : Bool
  needed : Int

/-- `Args.adjustMaximums` of `part_005`: one pass over the slots that
clamps `StartMax` below `StartMin`, pins an unbounded non-collection
slot to `Maximum = 1` **and then returns from the whole loop**, zeroes a
collection minimum under the (unreachable, `noTags` is never set true)
all-required-untagged policy, and stops at the last slot. -/
def adjustLoop (n : Nat) (allRequired noTags : Bool) : List Arg → List Arg
  | [] => []
  | arg :: rest =>
    let arg1 := if arg.startMax < arg.startMin then { arg with startMax := arg.startMin } else arg
    if arg1.maximum = -1 ∧ ¬ isSliceOrMap arg1.kind then
      { arg1 with maximum := 1 } :: rest
    else
      let arg2 :=
        if isSliceOrMap arg1.kind ∧ allRequired ∧ noTags then { arg1 with minimum := 0 }
        else arg1
      if arg2.index = n - 1 then arg2 :: rest
      else arg2 :: adjustLoop n allRequired noTags rest

/-- The fold step of `ScanArgs` over one field: compute the slot's
requirements, record the cumulative `StartMin`/`StartMax`, and update
the totals (`totalMax` only advances for bounded maximums). -/
def scanField (args : ArgsT) (f : FieldSpec) : ArgsT :=
  let noTags' := if f.required.isSome then false else args.noTags
  let (mn, mx) := positionalReqs f.kind f.required args.allRequired
  let arg : Arg :=
    ⟨args.slots.length, f.name, mn, mx, args.totalMin, args.totalMax, [], f.kind⟩
  { args with
    slots := args.slots ++ [arg]
    totalMin := args.totalMin + mn
    totalMax := if mx ≠ -1 then args.totalMax + mx else args.totalMax
    noTags := noTags' }

/-- `ScanArgs` of `part_005`: scan the fields in order, run the
adjustment pass, and set `needed` to the total minimum. -/
def scanArgs (structRequired : Bool) (fields : List FieldSpec) : ArgsT :=
  let scanned := fields.foldl scanField ⟨[], 0, 0, structRequired, false, 0⟩
  let adjusted :=
    { scanned with
      slots := adjustLoop scanned.slots.length scanned.allRequired scanned.noTags scanned.slots }
  { adjusted with needed := adjusted.totalMin }

/-!
The second scanner, `Scan` of `internal/positional/argument.go`, with its
own `positionalReqs`, `parseArgsNumRequired` (no `set` flag) and a
per-slot `adjustMaximums` (the `return` there only ends one slot's
adjustment, not the whole pass).
-/

/-- `parseArgsNumRequired` of `argument.go` (no `isSet` distinction). -/
def parseArgsNumRequiredA (req : Option (List Char)) : Int × Int :=
  match req with
  | none => (-1, -1)
  | some sreq =>
    if sreq = [] then (-1, -1)
    else
      match splitN2 sreq with
      | r0 :: r1 :: _ => ((parseInt64? r0).getD 1, (parseInt64? r1).getD (-1))
      | [only] => ((parseInt64? only).getD 1, -1)
      | [] => (1, -1)

/-- `positionalReqs` of `argument.go`. -/
def positionalReqsA (kind : ValKind) (req : Option (List Char)) (all : Bool) : Int × Int :=
  let (required, mx) := parseArgsNumRequiredA req
  if 0 < required ∧ isSliceOrMap kind then (required, mx)
  else if 0 < required ∨ (all ∧ required = -1) then (1, mx)
  else (0, mx)

/-- `adjustMaximums` of `argument.go`, applied to one slot: clamp
`StartMax` and pin an unbounded non-collection slot to `Maximum = 1`. -/
def adjustOneA (arg : Arg) : Arg :=
  let arg1 := if arg.startMax < arg.startMin then { arg with startMax := arg.startMin } else arg
  if arg1.maximum = -1 ∧ ¬ isSliceOrMap arg1.kind then { arg1 with maximum := 1 }
  else arg1

/-- The fold step of `Scan` over one field (accumulating the slot list
and the `reqTotal`/`reqMax` counters). -/
def scanFieldA (all : Bool) (acc : List Arg × Int × Int) (f : FieldSpec) :
    List Arg × Int × Int :=
  let (slots, reqTotal, reqMax) := acc
  let (mn, mx) := positionalReqsA f.kind f.required all
  let arg : Arg := ⟨slots.length, f.name, mn, mx, reqTotal, reqMax, [], f.kind⟩
  (slots ++ [arg], reqTotal + mn, if mx ≠ -1 then reqMax + mx else reqMax)

/-- `Scan` of `argument.go`: scan the fields, then adjust every slot;
returns the slot list and the required total. -/
def scanA (reqAll : Bool) (fields : List FieldSpec) : List Arg × Int :=
  let (slots, reqTotal, _) := fields.foldl (scanFieldA reqAll) ([], 0, 0)
  (slots.map adjustOneA, reqTotal)

/-!
Completion side: the `Words` stack of `part_005` and the concurrent
eligibility evaluator of `gen/gcomp/positional.go`.
-/

/-- The `Words` stack: remaining words, the shared `done` cell (for the
completion path `GetWords` points it at a **copy** of the slot's
`StartMin`, so popping never writes the table), the per-slot `parsed`
counter and the `needed` total. -/
structure Words where
  list : List String
  done : Int
  parsed : Nat
  needed : Int
deriving DecidableEq, Repr

/-- `Words.Pop`: first word (or `""` when empty) plus the updated stack. -/
def Words.pop (w : Words) : String × Words :=
  match w.list with
  | [] => ("", w)
  | a :: rest => (a, { w with list := rest, parsed := w.parsed + 1, done := w.done + 1 })

/-- `GetWords(arg, args, needed)`: a stack windowed at the slot's
`StartMin` (empty when not enough words), whose `done` cell is the
copied `StartMin` of the by-value `arg` parameter. -/
def getWords (arg : Arg) (args : List String) (needed : Int) : Words :=
  let base : Words := ⟨[], arg.startMin, 0, needed⟩
  if arg.startMin < (args.length : Int) then { base with list := args.drop arg.startMin.toNat }
  else base

/-- The completion callback cache (`compCache`): the per-slot candidate
sources registered before evaluation, and the list of sources the
eligible slots have asked to use.  Candidate sources are opaque; we name
them by strings. -/
structure CompCache where
  completers : Nat → Option String
  cache : List String

/-- `compCache.useCompleter`: register slot `index`'s candidate source
into the result set, when that slot has one. -/
def useCompleter (c : CompCache) (index : Nat) : CompCache :=
  match c.completers index with
  | some cb => { c with cache := c.cache ++ [cb] }
  | none => c

/-- `completeOrIgnore`: the slot is a completion candidate iff its
maximum is unbounded, or `actuallyParsed` is below its minimum, or
`actuallyParsed` is below its maximum. -/
def completeOrIgnore (arg : Arg) (comps : CompCache) (actuallyParsed : Nat) : CompCache :=
  let mustComplete :=
    arg.maximum = -1 ∨ (actuallyParsed : Int) < arg.minimum ∨
      (actuallyParsed : Int) < arg.maximum
  if mustComplete then useCompleter comps arg.index else comps

/-- The word-walking loop of the completion-side `consumeWords`: a token
is attributed to the drift while `drift > 0`, otherwise counted into
`actuallyParsed`; the walk pops each token from the private stack and
breaks once `actuallyParsed` reaches the slot's `Maximum`. -/
def gcompLoop (arg : Arg) (stack : Words) (drift : Int) (ap : Nat) : Words × Nat :=
  match h : stack.list with
  | [] => (stack, ap)
  | _ :: rest =>
    let ap' := if drift = 0 then ap + 1 else ap
    let drift' := if drift = 0 then drift else if 0 < drift then drift - 1 else drift
    -- `stack.Pop()` on the non-empty stack, inlined
    let stack' : Words := { stack with list := rest, parsed := stack.parsed + 1, done := stack.done + 1 }
    if arg.maximum = (ap' : Int) then (stack', ap')
    else gcompLoop arg stack' drift' ap'
termination_by stack.list.length
decreasing_by
  simp only [h]
  simp

/-- The completion-side `consumeWords` of `gen/gcomp/positional.go`: an
unbounded slot always completes (with `actuallyParsed = 0`); otherwise
walk the private window with `drift = StartMax - StartMin` and decide
through `completeOrIgnore`.  Returns the slot (which the Go code holds
by pointer but never writes), the stack and the cache. -/
def gcompConsumeWords (arg : Arg) (stack : Words) (comps : CompCache) :
    Arg × Words × CompCache :=
  if arg.maximum = -1 then (arg, stack, completeOrIgnore arg comps 0)
  else
    let (stack', ap) := gcompLoop arg stack (arg.startMax - arg.startMin) 0
    (arg, stack', completeOrIgnore arg comps ap)

/-- The `actuallyParsed` count a slot ends the walk with (0 for an
unbounded slot, which skips the walk). -/
def actuallyParsedOf (arg : Arg) (stack : Words) : Nat :=
  if arg.maximum = -1 then 0
  else (gcompLoop arg stack (arg.startMax - arg.startMin) 0).2

/-- One slot's completion task (the goroutine body of
`positionalCompleter`): skip the slot entirely when fewer words than its
`StartMin` are present, otherwise build the private stack and run the
completion-side `consumeWords` against a task-local cache. -/
def completionTask (arg : Arg) (ctxArgs : List String) (needed : Int)
    (comps : CompCache) : Arg × CompCache :=
  if (ctxArgs.length : Int) < arg.startMin then (arg, comps)
  else
    let words := getWords arg ctxArgs needed
    let (arg', _, comps') := gcompConsumeWords arg words comps
    (arg', comps')

/-- The concurrent evaluation (`positionalCompleter` handler): every
slot task runs independently on the shared immutable inputs; the merge
after the join is the order-irrelevant union of the per-slot cache
contributions, modelled as their concatenation in slot order.  Returns
the slot table as left by the tasks and the merged candidate sources. -/
def evalCompletion (args : List Arg) (ctxArgs : List String) (needed : Int)
    (completers : Nat → Option String) : List Arg × List String :=
  let results := args.map fun arg => completionTask arg ctxArgs needed ⟨completers, []⟩
  (results.map (·.1), (results.map fun r => r.2.cache).flatten)

/-!
Helper lemmas about the sequential allocator.
-/

lemma convertValue_index (w : String) (arg : Arg) : (convertValue w arg).index = arg.index := by
  unfold convertValue
  cases arg.kind <;> rfl

lemma convertValue_name (w : String) (arg : Arg) : (convertValue w arg).name = arg.name := by
  unfold convertValue
  cases arg.kind <;> rfl

lemma convertValue_minimum (w : String) (arg : Arg) :
    (convertValue w arg).minimum = arg.minimum := by
  unfold convertValue
  cases arg.kind <;> rfl

lemma convertValue_maximum (w : String) (arg : Arg) :
    (convertValue w arg).maximum = arg.maximum := by
  unfold convertValue
  cases arg.kind <;> rfl

lemma convertValue_kind (w : String) (arg : Arg) : (convertValue w arg).kind = arg.kind := by
  unfold convertValue
  cases arg.kind <;> rfl

lemma convertValue_value_slice (w : String) (arg : Arg) (h : arg.kind = ValKind.slice) :
    (convertValue w arg).value = arg.value ++ [w] := by
  unfold convertValue
  rw [h]

/-- Main bookkeeping of one `consumeWords` call: it consumes some
prefix of `k ≤ len` words, advancing `done` and `parsed` by exactly
`k`, leaves the identity fields of the slot unchanged, and appends the
consumed words to a slice slot's value. -/
lemma consumeWords_spec (arg : Arg) (ws : List String) (c : Cur) :
    ∃ k, k ≤ ws.length ∧
      (consumeWords arg ws c).words = ws.drop k ∧
      (consumeWords arg ws c).cur.done = c.done + k ∧
      (consumeWords arg ws c).cur.parsed = c.parsed + k ∧
      (consumeWords arg ws c).arg.index = arg.index ∧
      (consumeWords arg ws c).arg.name = arg.name ∧
      (consumeWords arg ws c).arg.minimum = arg.minimum ∧
      (consumeWords arg ws c).arg.maximum = arg.maximum ∧
      (consumeWords arg ws c).arg.kind = arg.kind ∧
      (arg.kind = ValKind.slice →
        (consumeWords arg ws c).arg.value = arg.value ++ ws.take k) := by
  induction ws generalizing arg c with
  | nil =>
    refine ⟨0, ?_⟩
    simp [consumeWords]
  | cons w rest ih =>
    rw [consumeWords]
    split_ifs with h1 h2 h3
    · exact ⟨0, by simp⟩
    · exact ⟨0, by simp⟩
    · refine ⟨1, by simp, by simp, by simp [curPop], by simp [curPop],
        convertValue_index w arg, convertValue_name w arg, convertValue_minimum w arg,
        convertValue_maximum w arg, convertValue_kind w arg, fun hs => absurd hs h3⟩
    · obtain ⟨k, hk, hw, hd, hp, hidx, hnm, hmin, hmax, hkind, hval⟩ :=
        ih (convertValue w arg) (curPop c)
      push_neg at h3
      refine ⟨k + 1, by simp; omega, ?_, ?_, ?_, ?_, ?_, ?_, ?_, ?_, ?_⟩
      · simpa using hw
      · rw [hd]; simp [curPop]; omega
      · rw [hp]; simp [curPop]; omega
      · rw [hidx, convertValue_index]
      · rw [hnm, convertValue_name]
      · rw [hmin, convertValue_minimum]
      · rw [hmax, convertValue_maximum]
      · rw [hkind, convertValue_kind]
      · intro hs
        rw [hval (by rw [convertValue_kind]; exact hs), convertValue_value_slice w arg hs]
        simp

/-- A slot ends with `ErrRequired` only with the word list exhausted and
the slot below its minimum. -/
lemma consumeWords_required (arg : Arg) (ws : List String) (c : Cur) :
    (consumeWords arg ws c).requiredErr = true →
    (consumeWords arg ws c).words = [] ∧
      ((consumeWords arg ws c).cur.parsed : Int) < arg.minimum := by
  induction ws generalizing arg c with
  | nil =>
    simp [consumeWords]
  | cons w rest ih =>
    rw [consumeWords]
    split_ifs with h1 h2 h3
    · simp
    · simp
    · simp
    · intro hreq
      obtain ⟨hw, hp⟩ := ih (convertValue w arg) (curPop c) hreq
      exact ⟨hw, by rwa [convertValue_minimum] at hp⟩

/-- When a slot ends without `ErrRequired` and its declared bounds are
consistent (`Maximum` unbounded or `Minimum ≤ Maximum`, and a non-slice
slot asks for at most one word), it has received its minimum. -/
lemma consumeWords_min (arg : Arg) (ws : List String) (c : Cur)
    (hmm : arg.maximum = -1 ∨ arg.minimum ≤ arg.maximum)
    (hsc : arg.kind ≠ ValKind.slice → arg.minimum ≤ 1) :
    (consumeWords arg ws c).requiredErr = false →
    arg.minimum ≤ ((consumeWords arg ws c).cur.parsed : Int) := by
  induction ws generalizing arg c with
  | nil =>
    simp only [consumeWords]
    intro h
    simpa using h
  | cons w rest ih =>
    rw [consumeWords]
    split_ifs with h1 h2 h3
    · intro _
      rcases hmm with hmb | hle
      · exact absurd hmb h1.2
      · simp only
        omega
    · intro _
      exact h2.1
    · intro _
      have h1le := hsc h3
      simp only [curPop]
      push_cast
      omega
    · intro hreq
      have := ih (convertValue w arg) (curPop c)
        (by rw [convertValue_minimum, convertValue_maximum]; exact hmm)
        (by rw [convertValue_kind, convertValue_minimum]; exact hsc) hreq
      rwa [convertValue_minimum] at this

/-- The downstream-reservation invariant of the consume loop: if enough
words remain for everything still needed, and `needed` covers both the
unmet part of this slot's minimum (`offsetRange`) and the minimums of
the following slots (`restMin`), then the slot cannot fail, and the
invariant survives for the following slots. -/
lemma consumeWords_no_err (arg : Arg) (ws : List String) (c : Cur) (restMin : Int)
    (hrest : 0 ≤ restMin)
    (hK1 : 0 ≤ c.offsetRange)
    (hK2 : arg.minimum - (c.parsed : Int) ≤ c.offsetRange)
    (hlen : c.needed ≤ (ws.length : Int))
    (hneed : c.offsetRange + restMin ≤ c.needed) :
    (consumeWords arg ws c).requiredErr = false ∧
      (consumeWords arg ws c).cur.needed ≤ ((consumeWords arg ws c).words.length : Int) ∧
      restMin ≤ (consumeWords arg ws c).cur.needed := by
  induction ws generalizing arg c with
  | nil =>
    simp only [consumeWords, List.length_nil]
    refine ⟨?_, ?_, ?_⟩
    · simp only [decide_eq_false_iff_not, not_lt]
      simp only [List.length_nil, Nat.cast_zero] at hlen
      omega
    · simpa using hlen
    · omega
  | cons w rest ih =>
    rw [consumeWords]
    split_ifs with h1 h2 h3
    · exact ⟨rfl, hlen, by dsimp only; omega⟩
    · exact ⟨rfl, hlen, by dsimp only; omega⟩
    · refine ⟨rfl, ?_, ?_⟩
      · by_cases ho : 0 < c.offsetRange
        · simp only [curPop, ho, if_pos]
          simp only [List.length_cons] at hlen ⊢
          push_cast at hlen ⊢
          omega
        · have hor : c.offsetRange = 0 := by omega
          have hmle : arg.minimum ≤ (c.parsed : Int) := by omega
          have hlt : ¬ (((w :: rest).length : Int) ≤ c.needed) := fun hc => h2 ⟨hmle, hc⟩
          simp only [curPop, ho, if_neg, if_false]
          simp only [List.length_cons, not_le] at hlt ⊢
          push_cast at hlt ⊢
          omega
      · by_cases ho : 0 < c.offsetRange <;> simp only [curPop, ho, if_pos, if_neg, if_false] <;> omega
    · push_neg at h3
      have hstep :
          0 ≤ (curPop c).offsetRange ∧
            (convertValue w arg).minimum - ((curPop c).parsed : Int) ≤ (curPop c).offsetRange ∧
            (curPop c).needed ≤ (rest.length : Int) ∧
            (curPop c).offsetRange + restMin ≤ (curPop c).needed := by
        rw [convertValue_minimum]
        by_cases ho : 0 < c.offsetRange
        · simp only [curPop, ho, if_pos]
          simp only [List.length_cons] at hlen
          push_cast at hlen ⊢
          omega
        · have hor : c.offsetRange = 0 := by omega
          have hmle : arg.minimum ≤ (c.parsed : Int) := by omega
          have hlt : ¬ (((w :: rest).length : Int) ≤ c.needed) := fun hc => h2 ⟨hmle, hc⟩
          simp only [curPop, ho, if_neg, if_false]
          simp only [List.length_cons, not_le] at hlt
          push_cast at hlt ⊢
          omega
      exact ih (convertValue w arg) (curPop c) hstep.1 hstep.2.1 hstep.2.2.1 hstep.2.2.2

/-- The slot loop of `Args.Parse` consumes some prefix of `m ≤ len`
words in total, advances the global `done` counter by exactly `m`, and
leaves the suffix as the word list. -/
lemma parseLoop_spec (rest : List Arg) (processed : List Arg) (ws : List String) (c : Cur) :
    ∃ m, m ≤ ws.length ∧
      (parseLoop processed rest ws c).2.1 = ws.drop m ∧
      (parseLoop processed rest ws c).2.2.1.done = c.done + m := by
  induction rest generalizing processed ws c with
  | nil => exact ⟨0, by simp [parseLoop]⟩
  | cons arg rest' ih =>
    simp only [parseLoop]
    rcases consumeWords_spec arg ws { c with parsed := 0, offsetRange := arg.minimum } with
      ⟨k, hk, hw, hd, -, -, -, -, -, -, -⟩
    by_cases hb :
        (consumeWords arg ws { c with parsed := 0, offsetRange := arg.minimum }).requiredErr = true
    · rw [if_pos hb]
      exact ⟨k, hk, hw, hd⟩
    · rw [if_neg hb]
      obtain ⟨m', hm', hw', hd'⟩ :=
        ih (processed ++ [(consumeWords arg ws { c with parsed := 0, offsetRange := arg.minimum }).arg])
          (consumeWords arg ws { c with parsed := 0, offsetRange := arg.minimum }).words
          (consumeWords arg ws { c with parsed := 0, offsetRange := arg.minimum }).cur
      refine ⟨k + m', ?_, ?_, ?_⟩
      · rw [hw, List.length_drop] at hm'
        omega
      · rw [hw', hw, List.drop_drop]
      · rw [hd', hd]
        show c.done + k + m' = c.done + (k + m')
        omega

/-- If every remaining slot has a non-negative minimum, the minimums
still owed fit into `needed`, and enough words remain to cover `needed`,
then no slot of the loop ever raises `ErrRequired`. -/
lemma parseLoop_no_err (rest : List Arg) (processed : List Arg) (ws : List String) (c : Cur)
    (hmin : ∀ a ∈ rest, 0 ≤ a.minimum)
    (hneed : (rest.map (·.minimum)).sum ≤ c.needed)
    (hlen : c.needed ≤ (ws.length : Int)) :
    (parseLoop processed rest ws c).2.2.2 = none := by
  induction rest generalizing processed ws c with
  | nil => simp [parseLoop]
  | cons arg rest' ih =>
    simp only [parseLoop]
    have hmin0 : 0 ≤ arg.minimum := hmin arg (by simp)
    have hrest0 : 0 ≤ (rest'.map (·.minimum)).sum :=
      List.sum_nonneg fun x hx => by
        obtain ⟨a, ha, rfl⟩ := List.mem_map.mp hx
        exact hmin a (by simp [ha])
    have hsum : (List.map (·.minimum) (arg :: rest')).sum =
        arg.minimum + (rest'.map (·.minimum)).sum := by simp
    obtain ⟨herr, hlen', hneed'⟩ :=
      consumeWords_no_err arg ws { c with parsed := 0, offsetRange := arg.minimum }
        ((rest'.map (·.minimum)).sum) hrest0 hmin0 (by simp) hlen
        (by dsimp only; rw [hsum] at hneed; omega)
    rw [if_neg (by rw [herr]; simp)]
    exact ih _ _ _ (fun a ha => hmin a (by simp [ha])) hneed' hlen'

/-- When the loop completes without `ErrRequired` and every slot has
consistent bounds, the global `done` counter has grown by at least the
sum of the minimums: every slot received its minimum. -/
lemma parseLoop_done_ge (rest : List Arg) (processed : List Arg) (ws : List String) (c : Cur)
    (hok : ∀ a ∈ rest, (a.maximum = -1 ∨ a.minimum ≤ a.maximum) ∧
      (a.kind ≠ ValKind.slice → a.minimum ≤ 1))
    (hnone : (parseLoop processed rest ws c).2.2.2 = none) :
    (c.done : Int) + (rest.map (·.minimum)).sum ≤
      ((parseLoop processed rest ws c).2.2.1.done : Int) := by
  induction rest generalizing processed ws c with
  | nil => simp [parseLoop]
  | cons arg rest' ih =>
    simp only [parseLoop] at hnone ⊢
    by_cases hb :
        (consumeWords arg ws { c with parsed := 0, offsetRange := arg.minimum }).requiredErr = true
    · rw [if_pos hb] at hnone
      simp at hnone
    · rw [if_neg hb] at hnone ⊢
      obtain ⟨k, -, -, hd, hp, -, -, -, -, -, -⟩ :=
        consumeWords_spec arg ws { c with parsed := 0, offsetRange := arg.minimum }
      have hm := consumeWords_min arg ws { c with parsed := 0, offsetRange := arg.minimum }
        (hok arg (by simp)).1 (hok arg (by simp)).2 (by simpa using hb)
      have hrec := ih
        (processed ++ [(consumeWords arg ws { c with parsed := 0, offsetRange := arg.minimum }).arg])
        (consumeWords arg ws { c with parsed := 0, offsetRange := arg.minimum }).words
        (consumeWords arg ws { c with parsed := 0, offsetRange := arg.minimum }).cur
        (fun a ha => hok a (by simp [ha])) hnone
      have hsum : (List.map (·.minimum) (arg :: rest')).sum =
          arg.minimum + (rest'.map (·.minimum)).sum := by simp
      rw [hsum]
      have hdz : (consumeWords arg ws { c with parsed := 0, offsetRange := arg.minimum }).cur.done
          = c.done + k := hd
      have hpz : (consumeWords arg ws { c with parsed := 0, offsetRange := arg.minimum }).cur.parsed
          = k := by rw [hp]; simp
      rw [hpz] at hm
      rw [hdz] at hrec
      push_cast at hrec ⊢
      omega

/-- When the loop stops on `ErrRequired` (for a table with non-negative
minimums, fresh empty values and list-position indices, as the scanners
produce), the clause list built for the failing slot is non-empty: the
failing slot itself always contributes a clause. -/
lemma parseLoop_fail_names (rest : List Arg) (processed : List Arg) (ws : List String) (c : Cur)
    (hmin : ∀ a ∈ rest, 0 ≤ a.minimum)
    (hval : ∀ a ∈ rest, a.value = [])
    (hidx : ∀ i (h : i < rest.length), (rest.get ⟨i, h⟩).index = processed.length + i)
    {sl' : List Arg} {ws' : List String} {c' : Cur} {f : Arg}
    (hpar : parseLoop processed rest ws c = (sl', ws', c', some f)) :
    getRequiredNames sl' f ≠ [] := by
  induction rest generalizing processed ws c with
  | nil => simp [parseLoop] at hpar
  | cons arg rest' ih =>
    simp only [parseLoop] at hpar
    by_cases hb :
        (consumeWords arg ws { c with parsed := 0, offsetRange := arg.minimum }).requiredErr = true
    · rw [if_pos hb] at hpar
      obtain ⟨k, hk, -, -, hp, hix, -, hmn, -, hkd, hvl⟩ :=
        consumeWords_spec arg ws { c with parsed := 0, offsetRange := arg.minimum }
      obtain ⟨-, hlt⟩ :=
        consumeWords_required arg ws { c with parsed := 0, offsetRange := arg.minimum } hb
      simp only [Prod.mk.injEq, Option.some.injEq] at hpar
      obtain ⟨hsl, -, -, hf⟩ := hpar
      subst hsl hf
      have harg0 : 0 ≤ arg.minimum := hmin arg (by simp)
      set r := consumeWords arg ws { c with parsed := 0, offsetRange := arg.minimum } with hr
      have hidx0 : r.arg.index = processed.length := by
        rw [hix]
        simpa using hidx 0 (by simp)
      have hminpos : 0 < r.arg.minimum := by
        rw [hmn]
        have : (0 : Int) ≤ (r.cur.parsed : Int) := by positivity
        omega
      intro hnil
      rw [getRequiredNames, List.filterMap_eq_nil_iff] at hnil
      have hmem : (processed.length, r.arg) ∈ (processed ++ r.arg :: rest').enum := by
        rw [List.mk_mem_enum_iff_getElem?, List.getElem?_append_right (le_refl _)]
        simp
      have hnone := hnil _ hmem
      rw [if_neg (by simp [hidx0])] at hnone
      rw [if_neg (by
        simp only [not_not]
        unfold isRequiredArg
        have : r.arg.minimum ≠ -1 := by omega
        simp [this])] at hnone
      by_cases hks : r.arg.kind ≠ ValKind.slice
      · rw [if_pos hks] at hnone
        exact Option.some_ne_none _ hnone
      · rw [if_neg hks] at hnone
        push_neg at hks
        have hvlen : (r.arg.value.length : Int) < r.arg.minimum := by
          rw [hvl (by rw [hkd] at hks; exact hks), hval arg (by simp)]
          simp only [List.nil_append, List.length_take]
          rw [hmn]
          have hpk : r.cur.parsed = k := by rw [hp]; simp
          rw [hpk] at hlt
          have : min k ws.length = k := by omega
          rw [this]
          exact hlt
        rw [if_pos hvlen] at hnone
        exact Option.some_ne_none _ hnone
    · rw [if_neg hb] at hpar
      refine ih (processed ++ [(consumeWords arg ws { c with parsed := 0, offsetRange := arg.minimum }).arg]) _ _
        (fun a ha => hmin a (by simp [ha])) (fun a ha => hval a (by simp [ha])) ?_ hpar
      intro i h
      have h2 := hidx (i + 1) (by simpa using h)
      simp only [List.get_cons_succ] at h2
      simp only [List.length_append, List.length_singleton]
      omega

/-- The final retrocompat check never produces a `Required`-shaped
error, only the "too many" one. -/
lemma checkRequirementsFinal_not_required (sl : List Arg) (ws : List String) :
    ∀ names, checkRequirementsFinal sl ws ≠ some (PErr.required names) := by
  intro names
  unfold checkRequirementsFinal
  rcases sl.getLast? with _ | current
  · simp
  · dsimp only
    split_ifs <;> simp

/-- Claim C10 (amended): on every exit path — error or not — the
remainder returned by `Args.Parse` is exactly the suffix of the input
that was never claimed: the input minus the first `done` tokens.  (As
the counterexample shows, this remainder *can* be the full original
input when failure occurs before any token is claimed.) -/
theorem c10_remainder_exact (slots : List Arg) (tokens : List String) :
    (parse slots tokens).retargs = tokens.drop (parse slots tokens).cur.done := by
  obtain ⟨m, hm, hw, hd⟩ :=
    parseLoop_spec slots [] tokens ⟨0, 0, (slots.map (·.minimum)).sum, 0⟩
  rcases hq : parseLoop [] slots tokens ⟨0, 0, (slots.map (·.minimum)).sum, 0⟩ with
    ⟨sl', ws', c', f⟩
  rw [hq] at hw hd
  dsimp only at hw hd
  cases f <;> simp only [parse, hq] <;> rw [hw, hd] <;> simp

/-- Claim C10 counterexample: a trailing disabled collection slot
(`Minimum = Maximum = 0`) with one token: `Args.Parse` returns a
non-nil error together with a remainder that *is* the full original
input, contradicting "never the full original input". -/
theorem c10_counterexample :
    ((parse [⟨0, "x", 0, 0, 0, 0, [], ValKind.slice⟩] ["a"]).err).isSome = true ∧
      (parse [⟨0, "x", 0, 0, 0, 0, [], ValKind.slice⟩] ["a"]).retargs = ["a"] := by
  decide

/-- Claim C1 (amended): for every slot table with non-negative minimums
(as the scanners always produce) whose total minimum is satisfiable from
the stream length, `Args.Parse` never raises a per-slot Required error —
the only possible error is the final "too many" overflow check — and
the number of tokens claimed across all slots (the global `done`
counter) plus the length of the returned remainder equals the length of
the input token stream. -/
theorem c1_satisfiable_no_required (slots : List Arg) (tokens : List String)
    (hmin : ∀ a ∈ slots, 0 ≤ a.minimum)
    (hlen : (slots.map (·.minimum)).sum ≤ (tokens.length : Int)) :
    (parse slots tokens).failedRequired = false ∧
      (∀ names, (parse slots tokens).err ≠ some (PErr.required names)) ∧
      ((parse slots tokens).cur.done : Int) + ((parse slots tokens).retargs.length : Int)
        = (tokens.length : Int) := by
  have hnone := parseLoop_no_err slots [] tokens ⟨0, 0, (slots.map (·.minimum)).sum, 0⟩
    hmin (le_refl _) hlen
  obtain ⟨m, hm, hw, hd⟩ :=
    parseLoop_spec slots [] tokens ⟨0, 0, (slots.map (·.minimum)).sum, 0⟩
  rcases hq : parseLoop [] slots tokens ⟨0, 0, (slots.map (·.minimum)).sum, 0⟩ with
    ⟨sl', ws', c', f⟩
  rw [hq] at hw hd hnone
  dsimp only at hw hd hnone
  subst hnone
  refine ⟨?_, ?_, ?_⟩
  · simp [parse, hq]
  · intro names
    simp only [parse, hq]
    exact checkRequirementsFinal_not_required sl' ws' names
  · simp only [parse, hq]
    rw [hw, hd]
    simp only [List.length_drop]
    push_cast
    omega

/-- Claim C1 witness (Scenario A of the spec): two slots
`[{Minimum 1, Maximum 1, scalar}, {Minimum 0, unbounded, slice}]` and
three tokens satisfy the hypotheses, and the conclusion holds there. -/
theorem c1_satisfiable_no_required_witness :
    (parse [⟨0, "p1", 1, 1, 0, 0, [], ValKind.scalar⟩, ⟨1, "p2", 0, -1, 1, 1, [], ValKind.slice⟩]
        ["a", "b", "c"]).failedRequired = false ∧
      (∀ names,
        (parse [⟨0, "p1", 1, 1, 0, 0, [], ValKind.scalar⟩, ⟨1, "p2", 0, -1, 1, 1, [], ValKind.slice⟩]
            ["a", "b", "c"]).err ≠ some (PErr.required names)) ∧
      ((parse [⟨0, "p1", 1, 1, 0, 0, [], ValKind.scalar⟩, ⟨1, "p2", 0, -1, 1, 1, [], ValKind.slice⟩]
            ["a", "b", "c"]).cur.done : Int) +
          ((parse [⟨0, "p1", 1, 1, 0, 0, [], ValKind.scalar⟩, ⟨1, "p2", 0, -1, 1, 1, [], ValKind.slice⟩]
              ["a", "b", "c"]).retargs.length : Int)
        = ((["a", "b", "c"] : List String).length : Int) :=
  c1_satisfiable_no_required
    [⟨0, "p1", 1, 1, 0, 0, [], ValKind.scalar⟩, ⟨1, "p2", 0, -1, 1, 1, [], ValKind.slice⟩]
    ["a", "b", "c"] (by decide) (by decide)

/-- Claim C1 counterexample: a single slice slot `{Minimum 0, Maximum 1}`
with two tokens satisfies the claim's hypothesis (every minimum is
satisfiable: the total minimum is 0 ≤ 2), yet `Args.Parse` returns a
non-nil error (the "too many" overflow error), refuting "returns a nil
error". -/
theorem c1_counterexample :
    ((([⟨0, "files", 0, 1, 0, 0, [], ValKind.slice⟩] : List Arg).map (·.minimum)).sum
        ≤ ((["a", "b"] : List String).length : Int)) ∧
      (parse [⟨0, "files", 0, 1, 0, 0, [], ValKind.slice⟩] ["a", "b"]).err ≠ none := by
  decide

/-- Claim C8: a scalar (non-collection) slot claims at most one token
during `Args.Parse`, regardless of the stream length and of the slot's
declared bounds: `Args.Parse` calls `consumeWords` once per slot with
the per-slot counter reset to zero (`setNext`), and after one successful
conversion a non-slice slot returns immediately. -/
theorem c8_scalar_claims_at_most_one (arg : Arg) (ws : List String) (c : Cur)
    (hscalar : arg.kind = ValKind.scalar) (hstart : c.parsed = 0) :
    (consumeWords arg ws c).cur.parsed ≤ 1 := by
  cases ws with
  | nil => simp [consumeWords, hstart]
  | cons w rest =>
    rw [consumeWords]
    split_ifs with h1 h2 h3
    · simp [hstart]
    · simp [hstart]
    · simp [curPop, hstart]
    · exact absurd (by rw [hscalar]; simp) h3

/-- Claim C8 witness: a scalar slot declared with generous bounds
(`Minimum 2, Maximum 9`) facing five tokens still claims at most one. -/
theorem c8_scalar_claims_at_most_one_witness :
    (consumeWords ⟨0, "s", 2, 9, 0, 0, [], ValKind.scalar⟩ ["a", "b", "c", "d", "e"]
        ⟨0, 0, 2, 2⟩).cur.parsed ≤ 1 :=
  c8_scalar_claims_at_most_one ⟨0, "s", 2, 9, 0, 0, [], ValKind.scalar⟩
    ["a", "b", "c", "d", "e"] ⟨0, 0, 2, 2⟩ (by decide) (by decide)

/-- Claim C3 (amended): for every slot table satisfying the documented
slot invariant — non-negative minimums, `Minimum ≤ Maximum` unless
`Maximum` is unbounded, a non-slice slot asking for at most one word,
fresh (empty) values, and list-position indices, all of which hold for
scanner-produced tables with consistent range tags — if the total of
slot minimums strictly exceeds the number of input tokens, then
`Args.Parse` returns a non-nil Required error whose clause list names at
least one deficient slot. -/
theorem c3_undersupply_required_err (slots : List Arg) (tokens : List String)
    (hmin : ∀ a ∈ slots, 0 ≤ a.minimum)
    (hbounds : ∀ a ∈ slots, a.maximum = -1 ∨ a.minimum ≤ a.maximum)
    (hsc : ∀ a ∈ slots, a.kind ≠ ValKind.slice → a.minimum ≤ 1)
    (hval : ∀ a ∈ slots, a.value = [])
    (hidx : ∀ i (h : i < slots.length), (slots.get ⟨i, h⟩).index = i)
    (hlen : (tokens.length : Int) < (slots.map (·.minimum)).sum) :
    ∃ names, (parse slots tokens).err = some (PErr.required names) ∧ names ≠ [] := by
  obtain ⟨m, hm, hw, hd⟩ :=
    parseLoop_spec slots [] tokens ⟨0, 0, (slots.map (·.minimum)).sum, 0⟩
  rcases hq : parseLoop [] slots tokens ⟨0, 0, (slots.map (·.minimum)).sum, 0⟩ with
    ⟨sl', ws', c', f⟩
  rw [hq] at hw hd
  dsimp only at hw hd
  cases f with
  | none =>
    exfalso
    have hge := parseLoop_done_ge slots [] tokens ⟨0, 0, (slots.map (·.minimum)).sum, 0⟩
      (fun a ha => ⟨hbounds a ha, hsc a ha⟩) (by rw [hq])
    rw [hq] at hge
    dsimp only at hge
    rw [hd] at hge
    push_cast at hge
    omega
  | some failing =>
    have hnames := parseLoop_fail_names slots [] tokens ⟨0, 0, (slots.map (·.minimum)).sum, 0⟩
      hmin hval (fun i h => by simpa using hidx i h) hq
    refine ⟨getRequiredNames sl' failing, ?_, hnames⟩
    simp only [parse, hq, positionalRequiredErr]
    rw [if_neg hnames]

/-- Claim C3 witness (Scenario B of the spec): one slot
`{Minimum 2, unbounded, slice}` with a single token yields a Required
error with a non-empty clause list. -/
theorem c3_undersupply_required_err_witness :
    ∃ names,
      (parse [⟨0, "s", 2, -1, 0, 0, [], ValKind.slice⟩] ["x"]).err
          = some (PErr.required names) ∧ names ≠ [] :=
  c3_undersupply_required_err [⟨0, "s", 2, -1, 0, 0, [], ValKind.slice⟩] ["x"]
    (by decide) (by decide) (by decide) (by decide) (by decide) (by decide)

/-- Claim C3 counterexample: the scanner accepts the inconsistent range
tag `"2-1"` on a slice (producing `Minimum 2 > Maximum 1`), and on the
table `[slice {2, 1}, scalar {1, 1}]` with two tokens the total minimum
is `3 > 2`, yet `Args.Parse` returns a nil error: the first slot stops
at its maximum without its minimum being checked. -/
theorem c3_counterexample :
    (((["a", "b"] : List String).length : Int) <
        (([⟨0, "s1", 2, 1, 0, 0, [], ValKind.slice⟩, ⟨1, "s2", 1, 1, 2, 1, [], ValKind.scalar⟩] :
            List Arg).map (·.minimum)).sum) ∧
      (parse [⟨0, "s1", 2, 1, 0, 0, [], ValKind.slice⟩, ⟨1, "s2", 1, 1, 2, 1, [], ValKind.scalar⟩]
          ["a", "b"]).err = none := by
  decide

/-- The "too many" clause always uses the "zero arguments" phrasing
(when `Maximum = 0`) or the "at most N ..." phrasing. -/
lemma argHasTooMany_phrasing (arg : Arg) (n : Nat) :
    argHasTooMany arg n = "`" ++ arg.name ++ " (zero arguments)`" ∨
      ∃ t, argHasTooMany arg n
        = "`" ++ arg.name ++ " (at most " ++ toString arg.maximum ++ " " ++ t ++ ")`" := by
  unfold argHasTooMany
  split_ifs with h1 h2
  · left
    rfl
  · right
    exact ⟨_, rfl⟩
  · right
    exact ⟨_, rfl⟩

/-- Claim C4: when every slot was processed without a Required error,
(1) if the last slot is a collection whose stored length equals its
bounded `Maximum` and unconsumed tokens remain, `Args.Parse` returns a
non-nil "too many" error phrased "at most N ..." or "zero arguments"
instead of silently passing the excess as remainder; (2) when the last
slot's `Maximum` is unbounded, the error is nil and the excess simply
stays in the returned remainder. -/
theorem c4_final_overflow (slots : List Arg) (tokens : List String)
    (hnf : (parse slots tokens).failedRequired = false) :
    (∀ last, (parse slots tokens).slots.getLast? = some last →
      isSliceOrMap last.kind = true →
      (last.value.length : Int) = last.maximum →
      (parse slots tokens).retargs ≠ [] →
      (parse slots tokens).err
          = some (PErr.tooMany (argHasTooMany last (parse slots tokens).retargs.length)) ∧
        (argHasTooMany last (parse slots tokens).retargs.length
            = "`" ++ last.name ++ " (zero arguments)`" ∨
          ∃ t, argHasTooMany last (parse slots tokens).retargs.length
            = "`" ++ last.name ++ " (at most " ++ toString last.maximum ++ " " ++ t ++ ")`")) ∧
      (∀ last, (parse slots tokens).slots.getLast? = some last →
        last.maximum = -1 → (parse slots tokens).err = none) := by
  rcases hq : parseLoop [] slots tokens ⟨0, 0, (slots.map (·.minimum)).sum, 0⟩ with
    ⟨sl', ws', c', f⟩
  cases f with
  | some failing =>
    exfalso
    simp [parse, hq] at hnf
  | none =>
    simp only [parse, hq]
    constructor
    · intro last hlast hks hlen hne
      have hpos : 0 < ws'.length := List.length_pos.mpr hne
      refine ⟨?_, argHasTooMany_phrasing last ws'.length⟩
      unfold checkRequirementsFinal
      rw [hlast]
      dsimp only
      rw [if_pos ⟨hks, hlen, hpos⟩]
    · intro last hlast hmax
      unfold checkRequirementsFinal
      rw [hlast]
      dsimp only
      rw [if_neg]
      rintro ⟨-, hl, -⟩
      rw [hmax] at hl
      omega

/-- Claim C4 witness: one slice slot `{Minimum 0, Maximum 1}` with two
tokens ends with the slot full and one token left over, and
`Args.Parse` returns the "too many" error for it. -/
theorem c4_final_overflow_witness :
    (parse [⟨0, "files", 0, 1, 0, 0, [], ValKind.slice⟩] ["a", "b"]).err
      = some (PErr.tooMany (argHasTooMany ⟨0, "files", 0, 1, 0, 0, ["a"], ValKind.slice⟩
          (parse [⟨0, "files", 0, 1, 0, 0, [], ValKind.slice⟩] ["a", "b"]).retargs.length)) :=
  ((c4_final_overflow [⟨0, "files", 0, 1, 0, 0, [], ValKind.slice⟩] ["a", "b"] (by decide)).1
    ⟨0, "files", 0, 1, 0, 0, ["a"], ValKind.slice⟩ (by decide) (by decide) (by decide)
    (by decide)).1

/-!
Completion-side lemmas and claims.
-/

/-- The completion walk on an already-empty private stack parses
nothing. -/
lemma gcompLoop_nil (arg : Arg) (stack : Words) (drift : Int) (ap : Nat)
    (h : stack.list = []) : gcompLoop arg stack drift ap = (stack, ap) := by
  rw [gcompLoop]
  split
  · rfl
  · rename_i heq
    rw [h] at heq
    cases heq

/-- Claim C2: with drift `StartMax - StartMin` and `actuallyParsed`
counted by walking the private token window (tokens first attributed to
drift, then to `actuallyParsed`, stopping once `actuallyParsed` reaches
a bounded `Maximum`), a slot that has a registered candidate source
contributes it to the result set if and only if `Maximum` is unbounded
(-1), or `actuallyParsed < Minimum`, or `actuallyParsed < Maximum`. -/
theorem c2_completion_eligibility (arg : Arg) (stack : Words) (comps : CompCache) (cb : String)
    (hcb : comps.completers arg.index = some cb) :
    ((gcompConsumeWords arg stack comps).2.2.cache = comps.cache ++ [cb]) ↔
      (arg.maximum = -1 ∨ (actuallyParsedOf arg stack : Int) < arg.minimum ∨
        (actuallyParsedOf arg stack : Int) < arg.maximum) := by
  by_cases hm : arg.maximum = -1
  · simp [gcompConsumeWords, actuallyParsedOf, hm, completeOrIgnore, useCompleter, hcb]
  · rcases hgl : gcompLoop arg stack (arg.startMax - arg.startMin) 0 with ⟨stack', ap⟩
    have hred : gcompConsumeWords arg stack comps
        = (arg, stack', completeOrIgnore arg comps ap) := by
      unfold gcompConsumeWords
      rw [if_neg hm, hgl]
    have hap : actuallyParsedOf arg stack = ap := by
      unfold actuallyParsedOf
      rw [if_neg hm, hgl]
    rw [hred, hap]
    dsimp only
    unfold completeOrIgnore
    by_cases hmc : arg.maximum = -1 ∨ (ap : Int) < arg.minimum ∨ (ap : Int) < arg.maximum
    · rw [if_pos hmc]
      unfold useCompleter
      rw [hcb]
      simp [hmc]
    · rw [if_neg hmc]
      apply iff_of_false
      · intro hcache
        have := congrArg List.length hcache
        simp at this
      · exact hmc

/-- Claim C2 witness: a slot `{Minimum 1, Maximum 2}` with a one-word
window and a registered source: `actuallyParsed = 1 < Maximum = 2`, so
the source is contributed. -/
theorem c2_completion_eligibility_witness :
    ((gcompConsumeWords ⟨0, "a", 1, 2, 0, 0, [], ValKind.slice⟩ ⟨["x"], 0, 0, 1⟩
          ⟨fun i => if i = 0 then some "cbA" else none, []⟩).2.2.cache = [] ++ ["cbA"]) ↔
      ((⟨0, "a", 1, 2, 0, 0, [], ValKind.slice⟩ : Arg).maximum = -1 ∨
        ((actuallyParsedOf ⟨0, "a", 1, 2, 0, 0, [], ValKind.slice⟩ ⟨["x"], 0, 0, 1⟩ : Nat) : Int)
            < (⟨0, "a", 1, 2, 0, 0, [], ValKind.slice⟩ : Arg).minimum ∨
        ((actuallyParsedOf ⟨0, "a", 1, 2, 0, 0, [], ValKind.slice⟩ ⟨["x"], 0, 0, 1⟩ : Nat) : Int)
            < (⟨0, "a", 1, 2, 0, 0, [], ValKind.slice⟩ : Arg).maximum) :=
  c2_completion_eligibility ⟨0, "a", 1, 2, 0, 0, [], ValKind.slice⟩ ⟨["x"], 0, 0, 1⟩
    ⟨fun i => if i = 0 then some "cbA" else none, []⟩ "cbA" rfl

/-- The completion task never rewrites the slot it evaluates: the Go
code passes the slot by pointer but only ever reads it (`GetWords`
receives a by-value copy whose `StartMin` cell absorbs the pops). -/
lemma completionTask_fst (a : Arg) (ctxArgs : List String) (needed : Int) (comps : CompCache) :
    (completionTask a ctxArgs needed comps).1 = a := by
  unfold completionTask
  split_ifs
  · rfl
  · rcases hg : gcompConsumeWords a (getWords a ctxArgs needed) comps with ⟨a', stack', comps'⟩
    have : a' = a := by
      unfold gcompConsumeWords at hg
      split_ifs at hg
      · cases hg
        rfl
      · rcases gcompLoop a (getWords a ctxArgs needed) (a.startMax - a.startMin) 0 with ⟨s, ap⟩
        cases hg
        rfl
    simp [hg, this]

/-- Claim C9: the concurrent completion evaluation never writes to any
slot: for every slot table and every partial token input the table —
and in particular every slot's `Value` — is identical before and after
the evaluation (each task pops words only from its private copy and
never invokes the converter). -/
theorem c9_completion_no_mutation (args : List Arg) (ctxArgs : List String) (needed : Int)
    (completers : Nat → Option String) :
    (evalCompletion args ctxArgs needed completers).1 = args := by
  unfold evalCompletion
  dsimp only
  rw [List.map_map]
  rw [List.map_congr_left (fun a _ => by
    show (completionTask a ctxArgs needed ⟨completers, []⟩).1 = id a
    rw [completionTask_fst]
    rfl)]
  exact List.map_id args

/-- On an empty partial input, one slot's completion task contributes
its candidate source exactly when its `StartMin` gate passes (no words
are required before it) and it is eligible at zero parsed tokens. -/
lemma completionTask_cache_nil (a : Arg) (needed : Int) (completers : Nat → Option String) :
    (completionTask a [] needed ⟨completers, []⟩).2.cache =
      if a.startMin ≤ 0 ∧ (a.maximum = -1 ∨ 0 < a.minimum ∨ 0 < a.maximum)
      then (completers a.index).toList else [] := by
  unfold completionTask
  by_cases hs : ((([] : List String).length : Nat) : Int) < a.startMin
  · rw [if_pos hs]
    simp only [List.length_nil, Nat.cast_zero] at hs
    rw [if_neg (fun hc => absurd hc.1 (by omega))]
  · rw [if_neg hs]
    simp only [List.length_nil, Nat.cast_zero, not_lt] at hs
    have hlist : (getWords a [] needed).list = [] := by
      unfold getWords
      split_ifs <;> simp
    have hg : gcompConsumeWords a (getWords a [] needed) ⟨completers, []⟩
        = (a, getWords a [] needed, completeOrIgnore a ⟨completers, []⟩ 0) := by
      unfold gcompConsumeWords
      by_cases hm : a.maximum = -1
      · rw [if_pos hm]
      · rw [if_neg hm, gcompLoop_nil a _ _ _ hlist]
    dsimp only
    rw [hg]
    dsimp only
    unfold completeOrIgnore
    by_cases hel : a.maximum = -1 ∨ ((0 : Nat) : Int) < a.minimum ∨ ((0 : Nat) : Int) < a.maximum
    · rw [if_pos hel]
      have hel' : a.maximum = -1 ∨ 0 < a.minimum ∨ 0 < a.maximum := by
        simpa using hel
      rw [if_pos ⟨hs, hel'⟩]
      unfold useCompleter
      cases hc : completers a.index <;> simp [hc]
    · rw [if_neg hel]
      have hel' : ¬ (a.maximum = -1 ∨ 0 < a.minimum ∨ 0 < a.maximum) := by
        simpa using hel
      rw [if_neg (fun hc => hel' hc.2)]

/-- One unfolding step of the merged candidate list. -/
lemma evalCompletion_snd_cons (a : Arg) (args' : List Arg) (ctxArgs : List String)
    (needed : Int) (completers : Nat → Option String) :
    (evalCompletion (a :: args') ctxArgs needed completers).2 =
      (completionTask a ctxArgs needed ⟨completers, []⟩).2.cache ++
        (evalCompletion args' ctxArgs needed completers).2 := by
  unfold evalCompletion
  dsimp only
  rw [List.map_cons, List.map_cons, List.flatten_cons]

/-- Claim C7 (amended): on an empty partial input, the merged candidate
set of the concurrent evaluation consists of exactly the sources of the
slots with `StartMin ≤ 0` (equivalently `StartMin = 0` for scanned
tables) **that are still eligible at zero parsed tokens** — `Maximum`
unbounded, or `Minimum > 0`, or `Maximum > 0`.  A slot with
`StartMin = 0` but `Maximum = 0` (a disabled slot) contributes nothing,
which is what refutes the claim as stated. -/
theorem c7_empty_input_eligible (args : List Arg) (needed : Int)
    (completers : Nat → Option String) :
    (evalCompletion args [] needed completers).2 =
      args.filterMap (fun a =>
        if a.startMin ≤ 0 ∧ (a.maximum = -1 ∨ 0 < a.minimum ∨ 0 < a.maximum)
        then completers a.index else none) := by
  induction args with
  | nil => rfl
  | cons a args' ih =>
    rw [evalCompletion_snd_cons, ih, List.filterMap_cons, completionTask_cache_nil]
    by_cases hcond : a.startMin ≤ 0 ∧ (a.maximum = -1 ∨ 0 < a.minimum ∨ 0 < a.maximum)
    · rw [if_pos hcond, if_pos hcond]
      cases hc : completers a.index <;> simp
    · rw [if_neg hcond, if_neg hcond]
      simp

/-- Claim C7 counterexample: a single disabled slot
(`Minimum = Maximum = 0`) has `StartMin = 0`, yet the evaluation on an
empty partial input contributes no candidate source for it. -/
theorem c7_counterexample :
    ((⟨0, "x", 0, 0, 0, 0, [], ValKind.slice⟩ : Arg).startMin = 0) ∧
      (evalCompletion [⟨0, "x", 0, 0, 0, 0, [], ValKind.slice⟩] [] 0
          (fun _ => some "src")).2 = [] := by
  decide

/-!
Scanner lemmas (`ScanArgs` of `part_005` and `Scan` of `argument.go`).
-/

/-- The minimum computed by `positionalReqs` is never negative (the
source comment on `ScanArgs`: "min is never < 0"). -/
lemma positionalReqs_min_nonneg (kind : ValKind) (req : Option (List Char)) (all : Bool) :
    0 ≤ (positionalReqs kind req all).1 := by
  unfold positionalReqs
  rcases parseArgsNumRequired req with ⟨required, max0, set⟩
  dsimp only
  split_ifs with h1 h2 h3
  · omega
  · omega
  · omega
  · omega

/-- Same for the `argument.go` scanner. -/
lemma positionalReqsA_min_nonneg (kind : ValKind) (req : Option (List Char)) (all : Bool) :
    0 ≤ (positionalReqsA kind req all).1 := by
  unfold positionalReqsA
  rcases parseArgsNumRequiredA req with ⟨required, mx⟩
  dsimp only
  split_ifs with h1 h2
  · omega
  · omega
  · omega

/-- The scan-time invariant: `totalMin` is the sum of the minimums
scanned so far, every slot's `StartMin` is the sum of the minimums of
the slots strictly before it, all minimums are non-negative, and the
`noTags` flag stays `false` (it is never set to `true` anywhere). -/
def ScanInv (args : ArgsT) : Prop :=
  args.totalMin = (args.slots.map (·.minimum)).sum ∧
    (∀ i (h : i < args.slots.length),
      (args.slots.get ⟨i, h⟩).startMin = ((args.slots.take i).map (·.minimum)).sum) ∧
    (∀ a ∈ args.slots, 0 ≤ a.minimum) ∧
    args.noTags = false

lemma scanField_inv (args : ArgsT) (f : FieldSpec) (hinv : ScanInv args) :
    ScanInv (scanField args f) := by
  obtain ⟨htot, hstart, hpos, hnt⟩ := hinv
  unfold scanField ScanInv
  rcases hpr : positionalReqs f.kind f.required args.allRequired with ⟨mn, mx⟩
  dsimp only
  have hmn : 0 ≤ mn := by
    have := positionalReqs_min_nonneg f.kind f.required args.allRequired
    rw [hpr] at this
    exact this
  refine ⟨?_, ?_, ?_, ?_⟩
  · rw [htot]
    simp
  · intro i h
    have hlt : i < args.slots.length + 1 := by simpa using h
    by_cases hi : i < args.slots.length
    · rw [List.get_append _ hi, List.take_append_of_le_length (by omega), hstart i hi]
    · have hieq : i = args.slots.length := by omega
      subst hieq
      have hget : ((args.slots ++
          [(⟨args.slots.length, f.name, mn, mx, args.totalMin, args.totalMax, [], f.kind⟩ : Arg)]).get
            ⟨args.slots.length, h⟩) =
          (⟨args.slots.length, f.name, mn, mx, args.totalMin, args.totalMax, [], f.kind⟩ : Arg) := by
        simp
      rw [hget, List.take_left]
      exact htot
  · intro a ha
    rcases List.mem_append.mp ha with hm | hm
    · exact hpos a hm
    · simp only [List.mem_singleton] at hm
      subst hm
      exact hmn
  · split <;> simp [hnt]

lemma scan_foldl_inv (fields : List FieldSpec) (args : ArgsT) (hinv : ScanInv args) :
    ScanInv (fields.foldl scanField args) := by
  induction fields generalizing args with
  | nil => exact hinv
  | cons f fields' ih => exact ih (scanField args f) (scanField_inv args f hinv)

/-- The adjustment pass of `part_005` (with `noTags = false`, which is
the only reachable value) never touches `StartMin` or `Minimum`. -/
lemma adjustLoop_proj (n : Nat) (allReq : Bool) (slots : List Arg) :
    (adjustLoop n allReq false slots).map (fun a => (a.startMin, a.minimum)) =
      slots.map (fun a => (a.startMin, a.minimum)) := by
  induction slots with
  | nil => rfl
  | cons arg rest ih =>
    unfold adjustLoop
    dsimp only
    simp only [Bool.false_eq_true, and_false, if_false]
    split_ifs <;> simp [ih]

/-- Scan-time invariant for the `argument.go` scanner accumulator
`(slots, reqTotal, reqMax)`. -/
def ScanInvA (acc : List Arg × Int × Int) : Prop :=
  acc.2.1 = (acc.1.map (·.minimum)).sum ∧
    (∀ i (h : i < acc.1.length),
      (acc.1.get ⟨i, h⟩).startMin = ((acc.1.take i).map (·.minimum)).sum) ∧
    (∀ a ∈ acc.1, 0 ≤ a.minimum)

lemma scanFieldA_inv (all : Bool) (acc : List Arg × Int × Int) (f : FieldSpec)
    (hinv : ScanInvA acc) : ScanInvA (scanFieldA all acc f) := by
  rcases acc with ⟨slots, reqTotal, reqMax⟩
  obtain ⟨htot, hstart, hpos⟩ := hinv
  simp only [ScanInvA] at htot hstart hpos ⊢
  unfold scanFieldA
  rcases hpr : positionalReqsA f.kind f.required all with ⟨mn, mx⟩
  dsimp only
  have hmn : 0 ≤ mn := by
    have := positionalReqsA_min_nonneg f.kind f.required all
    rw [hpr] at this
    exact this
  refine ⟨?_, ?_, ?_⟩
  · rw [htot]
    simp
  · intro i h
    have hlt : i < slots.length + 1 := by simpa using h
    by_cases hi : i < slots.length
    · rw [List.get_append _ hi, List.take_append_of_le_length (by omega), hstart i hi]
    · have hieq : i = slots.length := by omega
      subst hieq
      have hget : ((slots ++
          [(⟨slots.length, f.name, mn, mx, reqTotal, reqMax, [], f.kind⟩ : Arg)]).get
            ⟨slots.length, h⟩) =
          (⟨slots.length, f.name, mn, mx, reqTotal, reqMax, [], f.kind⟩ : Arg) := by
        simp
      rw [hget, List.take_left]
      exact htot
  · intro a ha
    rcases List.mem_append.mp ha with hm | hm
    · exact hpos a hm
    · simp only [List.mem_singleton] at hm
      subst hm
      exact hmn

lemma scanA_foldl_inv (all : Bool) (fields : List FieldSpec) (acc : List Arg × Int × Int)
    (hinv : ScanInvA acc) : ScanInvA (fields.foldl (scanFieldA all) acc) := by
  induction fields generalizing acc with
  | nil => exact hinv
  | cons f fields' ih => exact ih (scanFieldA all acc f) (scanFieldA_inv all acc f hinv)

/-- The per-slot adjustment of `argument.go` never touches `StartMin`
or `Minimum` either. -/
lemma adjustOneA_proj (a : Arg) :
    (adjustOneA a).startMin = a.startMin ∧ (adjustOneA a).minimum = a.minimum := by
  unfold adjustOneA
  dsimp only
  split_ifs <;> exact ⟨rfl, rfl⟩

/-- Splitting a pairwise `(startMin, minimum)` map equality into the two
component map equalities. -/
lemma proj_map_split {l1 l2 : List Arg}
    (h : l1.map (fun a => (a.startMin, a.minimum)) = l2.map (fun a => (a.startMin, a.minimum))) :
    l1.map (·.startMin) = l2.map (·.startMin) ∧ l1.map (·.minimum) = l2.map (·.minimum) := by
  constructor
  · have := congrArg (List.map Prod.fst) h
    simpa [List.map_map, Function.comp] using this
  · have := congrArg (List.map Prod.snd) h
    simpa [List.map_map, Function.comp] using this

/-- Sums of longer prefixes of a non-negative list are larger. -/
lemma sum_take_mono {M : List Int} (hM : ∀ x ∈ M, 0 ≤ x) {i j : Nat} (hij : i ≤ j) :
    (M.take i).sum ≤ (M.take j).sum := by
  have heq : M.take i = (M.take j).take i := by
    rw [List.take_take, min_eq_left hij]
  have h1 := List.sum_take_add_sum_drop (M.take j) i
  have h2 : 0 ≤ (((M.take j).drop i)).sum :=
    List.sum_nonneg fun x hx => hM x (List.mem_of_mem_take (List.mem_of_mem_drop hx))
  rw [heq]
  omega

/-- Transfer of the scan facts through an adjustment pass that keeps
`(StartMin, Minimum)` pointwise. -/
lemma table_facts_transfer {adj scanned : List Arg}
    (hproj : adj.map (fun a => (a.startMin, a.minimum))
      = scanned.map (fun a => (a.startMin, a.minimum)))
    (hpos : ∀ a ∈ scanned, 0 ≤ a.minimum)
    (hstart : ∀ i (h : i < scanned.length),
      (scanned.get ⟨i, h⟩).startMin = ((scanned.take i).map (·.minimum)).sum) :
    (∀ a ∈ adj, 0 ≤ a.minimum) ∧
      (∀ i (h : i < adj.length),
        (adj.get ⟨i, h⟩).startMin = ((adj.take i).map (·.minimum)).sum) := by
  obtain ⟨hsm, hmn⟩ := proj_map_split hproj
  have hlen : adj.length = scanned.length := by
    have := congrArg List.length hsm
    simpa using this
  constructor
  · intro a ha
    have hmem : a.minimum ∈ adj.map (·.minimum) := List.mem_map_of_mem _ ha
    rw [hmn] at hmem
    obtain ⟨b, hb, hba⟩ := List.mem_map.mp hmem
    rw [← hba]
    exact hpos b hb
  · intro i h
    have h2 : i < scanned.length := by omega
    have e1 : (adj.get ⟨i, h⟩).startMin = (scanned.get ⟨i, h2⟩).startMin := by
      have hm1 : i < (adj.map (·.startMin)).length := by simpa using h
      have hm2 : i < (scanned.map (·.startMin)).length := by simpa using h2
      have hq : (adj.map (·.startMin))[i]? = (scanned.map (·.startMin))[i]? := by rw [hsm]
      rw [List.getElem?_eq_getElem hm1, List.getElem?_eq_getElem hm2] at hq
      have hq2 := Option.some.inj hq
      rw [List.getElem_map, List.getElem_map] at hq2
      simpa using hq2
    have e2 : (adj.take i).map (·.minimum) = (scanned.take i).map (·.minimum) := by
      rw [List.map_take, List.map_take, hmn]
    rw [e1, e2]
    exact hstart i h2

/-- `StartMin` is monotone over any table whose `StartMin` entries are
the prefix sums of non-negative minimums. -/
lemma table_mono {slots : List Arg}
    (hpos : ∀ a ∈ slots, 0 ≤ a.minimum)
    (hstart : ∀ i (h : i < slots.length),
      (slots.get ⟨i, h⟩).startMin = ((slots.take i).map (·.minimum)).sum) :
    ∀ i j (hi : i < slots.length) (hj : j < slots.length), i ≤ j →
      (slots.get ⟨i, hi⟩).startMin ≤ (slots.get ⟨j, hj⟩).startMin := by
  intro i j hi hj hij
  rw [hstart i hi, hstart j hj, List.map_take, List.map_take]
  refine sum_take_mono ?_ hij
  intro x hx
  obtain ⟨a, ha, rfl⟩ := List.mem_map.mp hx
  exact hpos a ha

/-- The scan facts for the final `ScanArgs` table. -/
lemma scanArgs_facts (sr : Bool) (fields : List FieldSpec) :
    (∀ a ∈ (scanArgs sr fields).slots, 0 ≤ a.minimum) ∧
      (∀ i (h : i < (scanArgs sr fields).slots.length),
        ((scanArgs sr fields).slots.get ⟨i, h⟩).startMin =
          (((scanArgs sr fields).slots.take i).map (·.minimum)).sum) := by
  obtain ⟨htot, hstart, hpos, hnt⟩ :=
    scan_foldl_inv fields ⟨[], 0, 0, sr, false, 0⟩
      ⟨by simp, by intro i h; simp at h, by simp, rfl⟩
  have hslots : (scanArgs sr fields).slots =
      adjustLoop (fields.foldl scanField ⟨[], 0, 0, sr, false, 0⟩).slots.length
        (fields.foldl scanField ⟨[], 0, 0, sr, false, 0⟩).allRequired false
        (fields.foldl scanField ⟨[], 0, 0, sr, false, 0⟩).slots := by
    unfold scanArgs
    dsimp only
    rw [hnt]
  rw [hslots]
  exact table_facts_transfer (adjustLoop_proj _ _ _) hpos hstart

/-- The scan facts for the final `Scan` (`argument.go`) table. -/
lemma scanA_facts (all : Bool) (fields : List FieldSpec) :
    (∀ a ∈ (scanA all fields).1, 0 ≤ a.minimum) ∧
      (∀ i (h : i < (scanA all fields).1.length),
        ((scanA all fields).1.get ⟨i, h⟩).startMin =
          (((scanA all fields).1.take i).map (·.minimum)).sum) := by
  obtain ⟨htot, hstart, hpos⟩ :=
    scanA_foldl_inv all fields ([], 0, 0) ⟨by simp, by intro i h; simp at h, by simp⟩
  have hslots : (scanA all fields).1 =
      ((fields.foldl (scanFieldA all) ([], 0, 0)).1).map adjustOneA := by
    unfold scanA
    rcases fields.foldl (scanFieldA all) ([], 0, 0) with ⟨slots, reqTotal, reqMax⟩
    rfl
  have hproj : (((fields.foldl (scanFieldA all) ([], 0, 0)).1).map adjustOneA).map
      (fun a => (a.startMin, a.minimum)) =
      ((fields.foldl (scanFieldA all) ([], 0, 0)).1).map (fun a => (a.startMin, a.minimum)) := by
    rw [List.map_map]
    refine List.map_congr_left fun a _ => ?_
    have h := adjustOneA_proj a
    show ((adjustOneA a).startMin, (adjustOneA a).minimum) = (a.startMin, a.minimum)
    rw [h.1, h.2]
  rw [hslots]
  exact table_facts_transfer hproj hpos hstart

/-- Claim C6: in every slot table produced by the scanners (both
`ScanArgs` of the sequential pipeline and `Scan` of `argument.go`), each
slot's `StartMin` equals the sum of the `Minimum` values of all strictly
preceding slots as finally stored on the table, and consequently
`StartMin` is monotonically non-decreasing in declaration order. -/
theorem c6_startmin_cumulative (sr all : Bool) (fields : List FieldSpec) :
    ((∀ i (h : i < (scanArgs sr fields).slots.length),
        ((scanArgs sr fields).slots.get ⟨i, h⟩).startMin =
          (((scanArgs sr fields).slots.take i).map (·.minimum)).sum) ∧
      (∀ i j (hi : i < (scanArgs sr fields).slots.length)
          (hj : j < (scanArgs sr fields).slots.length), i ≤ j →
        ((scanArgs sr fields).slots.get ⟨i, hi⟩).startMin ≤
          ((scanArgs sr fields).slots.get ⟨j, hj⟩).startMin)) ∧
      ((∀ i (h : i < (scanA all fields).1.length),
        ((scanA all fields).1.get ⟨i, h⟩).startMin =
          (((scanA all fields).1.take i).map (·.minimum)).sum) ∧
      (∀ i j (hi : i < (scanA all fields).1.length)
          (hj : j < (scanA all fields).1.length), i ≤ j →
        ((scanA all fields).1.get ⟨i, hi⟩).startMin ≤
          ((scanA all fields).1.get ⟨j, hj⟩).startMin)) := by
  obtain ⟨hpos1, hstart1⟩ := scanArgs_facts sr fields
  obtain ⟨hpos2, hstart2⟩ := scanA_facts all fields
  exact ⟨⟨hstart1, table_mono hpos1 hstart1⟩, ⟨hstart2, table_mono hpos2 hstart2⟩⟩

/-- Claim C6 witness: a three-field table (slice tagged `"2"`, scalar
tagged `"1"`, untagged slice) has `StartMin` values `0, 2, 3` — the
prefix sums of the stored minimums `2, 1, 0` — and they are
non-decreasing. -/
theorem c6_startmin_cumulative_witness :
    (((scanArgs false [⟨"a", ValKind.slice, some ['2']⟩, ⟨"b", ValKind.scalar, some ['1']⟩,
        ⟨"c", ValKind.slice, none⟩]).slots.get ⟨2, by decide⟩).startMin =
      ((((scanArgs false [⟨"a", ValKind.slice, some ['2']⟩, ⟨"b", ValKind.scalar, some ['1']⟩,
        ⟨"c", ValKind.slice, none⟩]).slots.take 2).map (·.minimum)).sum)) ∧
      (((scanArgs false [⟨"a", ValKind.slice, some ['2']⟩, ⟨"b", ValKind.scalar, some ['1']⟩,
        ⟨"c", ValKind.slice, none⟩]).slots.get ⟨1, by decide⟩).startMin ≤
        ((scanArgs false [⟨"a", ValKind.slice, some ['2']⟩, ⟨"b", ValKind.scalar, some ['1']⟩,
          ⟨"c", ValKind.slice, none⟩]).slots.get ⟨2, by decide⟩).startMin) :=
  ⟨(c6_startmin_cumulative false false [⟨"a", ValKind.slice, some ['2']⟩,
      ⟨"b", ValKind.scalar, some ['1']⟩, ⟨"c", ValKind.slice, none⟩]).1.1 2 (by decide),
    (c6_startmin_cumulative false false [⟨"a", ValKind.slice, some ['2']⟩,
      ⟨"b", ValKind.scalar, some ['1']⟩, ⟨"c", ValKind.slice, none⟩]).1.2 1 2 (by decide)
      (by decide) (by decide)⟩

/-- `SplitN` on a string with no separator returns the whole string. -/
lemma splitN2_no_dash (s : List Char) (h : '-' ∉ s) : splitN2 s = [s] := by
  induction s with
  | nil => rfl
  | cons ch rest ih =>
    unfold splitN2
    rw [if_neg (fun hc => h (by simp [hc]))]
    rw [ih (fun hc => h (by simp [hc]))]

/-- `SplitN(s, "-", 2)` splits around the first separator only. -/
lemma splitN2_dash (sa sb : List Char) (h : '-' ∉ sa) :
    splitN2 (sa ++ '-' :: sb) = [sa, sb] := by
  induction sa with
  | nil => simp [splitN2]
  | cons ch rest ih =>
    rw [List.cons_append]
    unfold splitN2
    rw [if_neg (fun hc => h (by simp [hc]))]
    rw [ih (fun hc => h (by simp [hc]))]

/-- The scanned `(Minimum, Maximum)` of a single-field table: the
`positionalReqs` result, with the maximum pinned to 1 by the adjustment
pass exactly when it was left unbounded on a non-collection slot. -/
lemma scanArgs_single_minmax (sr : Bool) (nm : String) (kind : ValKind)
    (req : Option (List Char)) :
    (scanArgs sr [⟨nm, kind, req⟩]).slots.map (fun s => (s.minimum, s.maximum)) =
      [((positionalReqs kind req sr).1,
        if (positionalReqs kind req sr).2 = -1 ∧ ¬ (isSliceOrMap kind = true) then 1
        else (positionalReqs kind req sr).2)] := by
  rcases hm : positionalReqs kind req sr with ⟨mn, mx⟩
  unfold scanArgs
  dsimp only [List.foldl]
  unfold scanField
  dsimp only
  rw [hm]
  dsimp only
  unfold adjustLoop
  dsimp only
  simp only [List.nil_append, Bool.false_eq_true, and_false, if_false, lt_self_iff_false,
    ite_false]
  split_ifs with h1 h2 <;> simp_all

lemma parseArgsNumRequired_range (sa sb : List Char) (a b : Int) (hnd : '-' ∉ sa)
    (ha : parseInt64? sa = some a) (hb : parseInt64? sb = some b) :
    parseArgsNumRequired (some (sa ++ '-' :: sb)) = (a, b, true) := by
  unfold parseArgsNumRequired
  dsimp only
  rw [if_neg (by simp), splitN2_dash sa sb hnd]
  simp [ha, hb]

lemma parseArgsNumRequired_bare (sa : List Char) (a : Int) (hnd : '-' ∉ sa)
    (ha : parseInt64? sa = some a) :
    parseArgsNumRequired (some sa) = (a, -1, true) := by
  have hne : sa ≠ [] := by
    intro h
    subst h
    simp [parseInt64?, decDigits?] at ha
  unfold parseArgsNumRequired
  dsimp only
  rw [if_neg hne, splitN2_no_dash sa hnd]
  simp [ha]

/-- Claim C5 (amended): for a slot specification tag with parseable
components (stated on a single-slot table, so the adjustment pass
reaches the slot):
* a range `"a-b"` on a **collection** slot yields `Minimum = a` (clamped
  to 0 when `a` is not positive) and `Maximum = b`;
* a range `"a-b"` on a **scalar** slot yields `Minimum = Maximum = 1`
  whenever `a > 0` (both are pinned, not just the maximum); with
  `a ≤ 0` it yields `Minimum = 0` and keeps `Maximum = b` (pinned to 1
  only when `b` is the unbounded sentinel);
* a bare integer `"a"` on a **collection** slot yields `Minimum = a`
  (clamped to 0) with `Maximum` left unbounded;
* a bare integer `"a"` on a **scalar** slot yields `Minimum = Maximum
  = 1` when `a > 0`, and `Minimum = 0, Maximum = 1` otherwise. -/
theorem c5_tag_bounds (sr : Bool) (nm : String) (sa sb : List Char) (a b : Int)
    (hnd : '-' ∉ sa) (ha : parseInt64? sa = some a) (hb : parseInt64? sb = some b) :
    ((scanArgs sr [⟨nm, ValKind.slice, some (sa ++ '-' :: sb)⟩]).slots.map
        (fun s => (s.minimum, s.maximum)) = [(if 0 < a then a else 0, b)]) ∧
      ((scanArgs sr [⟨nm, ValKind.scalar, some (sa ++ '-' :: sb)⟩]).slots.map
        (fun s => (s.minimum, s.maximum)) =
          [if 0 < a then ((1 : Int), (1 : Int)) else (0, if b = -1 then 1 else b)]) ∧
      ((scanArgs sr [⟨nm, ValKind.slice, some sa⟩]).slots.map
        (fun s => (s.minimum, s.maximum)) = [(if 0 < a then a else 0, -1)]) ∧
      ((scanArgs sr [⟨nm, ValKind.scalar, some sa⟩]).slots.map
        (fun s => (s.minimum, s.maximum)) = [if 0 < a then ((1 : Int), (1 : Int)) else (0, 1)]) := by
  have hr := parseArgsNumRequired_range sa sb a b hnd ha hb
  have hbr := parseArgsNumRequired_bare sa a hnd ha
  refine ⟨?_, ?_, ?_, ?_⟩
  · rw [scanArgs_single_minmax]
    unfold positionalReqs
    rw [hr]
    dsimp only
    by_cases hA : 0 < a
    · rw [if_pos hA]
      simp [isSliceOrMap, hA]
    · rw [if_neg hA]
      simp [isSliceOrMap, hA]
  · rw [scanArgs_single_minmax]
    unfold positionalReqs
    rw [hr]
    dsimp only
    by_cases hA : 0 < a
    · rw [if_pos hA]
      simp [isSliceOrMap, hA]
    · rw [if_neg hA]
      by_cases hB : b = -1
      · simp [isSliceOrMap, hA, hB]
      · simp [isSliceOrMap, hA, hB]
  · rw [scanArgs_single_minmax]
    unfold positionalReqs
    rw [hbr]
    dsimp only
    by_cases hA : 0 < a
    · rw [if_pos hA]
      simp [isSliceOrMap, hA]
    · rw [if_neg hA]
      simp [isSliceOrMap, hA]
  · rw [scanArgs_single_minmax]
    unfold positionalReqs
    rw [hbr]
    dsimp only
    by_cases hA : 0 < a
    · rw [if_pos hA]
      simp [isSliceOrMap, hA]
    · rw [if_neg hA]
      simp [isSliceOrMap, hA]

/-- Claim C5 witness: the tag components `"2"` and `"3"` parse to 2 and
3, and the four scanned tables come out as the amended claim states. -/
theorem c5_tag_bounds_witness :
    ((scanArgs false [⟨"f", ValKind.slice, some (['2'] ++ '-' :: ['3'])⟩]).slots.map
        (fun s => (s.minimum, s.maximum)) = [(if 0 < (2 : Int) then 2 else 0, 3)]) ∧
      ((scanArgs false [⟨"f", ValKind.scalar, some (['2'] ++ '-' :: ['3'])⟩]).slots.map
        (fun s => (s.minimum, s.maximum)) =
          [if 0 < (2 : Int) then ((1 : Int), (1 : Int)) else (0, if (3 : Int) = -1 then 1 else 3)]) ∧
      ((scanArgs false [⟨"f", ValKind.slice, some ['2']⟩]).slots.map
        (fun s => (s.minimum, s.maximum)) = [(if 0 < (2 : Int) then 2 else 0, -1)]) ∧
      ((scanArgs false [⟨"f", ValKind.scalar, some ['2']⟩]).slots.map
        (fun s => (s.minimum, s.maximum)) = [if 0 < (2 : Int) then ((1 : Int), (1 : Int)) else (0, 1)]) :=
  c5_tag_bounds false "f" ['2'] ['3'] 2 3 (by decide) (by decide) (by decide)

/-- Claim C5 counterexample: the bare tag `"2"` (a parseable integer)
on a scalar slot yields `Minimum = 1`, not `Minimum = 2` as the claim
states: both bounds are pinned to 1 on a scalar with a positive
requirement. -/
theorem c5_counterexample :
    parseInt64? ['2'] = some 2 ∧
      (scanArgs false [⟨"f", ValKind.scalar, some ['2']⟩]).slots.map
        (fun s => (s.minimum, s.maximum)) = [((1 : Int), (1 : Int))] ∧
      ¬ ((scanArgs false [⟨"f", ValKind.scalar, some ['2']⟩]).slots.map
          (fun s => s.minimum) = [(2 : Int)]) := by
  decide
